import Mathlib

/-
Verification of the Monte Carlo Black-Scholes pricing engine
(src/server/cpp/src/monte_carlo.cpp).

Modelling conventions:
* C++ `double` values are modelled as real numbers (ℝ); exact real
  arithmetic stands in for IEEE-754 arithmetic.  Claims that are
  specifically about non-finite IEEE values (inf/NaN) are settled against
  a second, abstract model `FpVal` below, in which `FpVal.fin x` is a
  finite double idealized as the real `x` and `FpVal.nonfin` is any
  non-finite double (inf or NaN); every arithmetic operation with a
  non-finite operand yields a non-finite result, which is sound for the
  operations the engine performs (+, -, *, sqrt, and division by a
  finite count), and division of a finite value by an exact zero yields
  a non-finite result (±inf or NaN), as in IEEE-754.
* C++ `int` counters that are provably non-negative (trial counts,
  thread counts after resolution, loop indices) are modelled as ℕ;
  the raw user-facing `numTrials` and requested thread count, which may
  be negative, are modelled as ℤ.
* The pseudorandom standard-normal draws are modelled as an oracle:
  functions take the list (or indexed family) of variates consumed by
  the trial loop.  Thread seeding (lines 222-224) is not modelled; the
  draws are simply inputs.
-/

namespace MonteCarlo

/-- The statistical triple each worker emits (struct ThreadResult,
monte_carlo.cpp lines 199-205): running payoff sum, running sum of
squared payoffs, and the count of processed trials. -/
structure ThreadResult where
  sum : ℝ
  sum_squared : ℝ
  count : ℕ

/-- The engine's output triple (the three reference-output parameters
`price`, `lower`, `upper` of monte_carlo.cpp lines 153-155). -/
structure PricingResult where
  price : ℝ
  lower : ℝ
  upper : ℝ

/-- Branchless payoff (monte_carlo.cpp lines 42-50): computes both the
call and the put payoff, clamps each at zero with a conditional move,
and selects one by `isCall`. -/
noncomputable def calculate_payoff (ST K : ℝ) (isCall : Bool) : ℝ :=
  let call_payoff := ST - K
  let put_payoff := K - ST
  let call_result := if call_payoff > 0 then call_payoff else 0
  let put_result := if put_payoff > 0 then put_payoff else 0
  if isCall then call_result else put_result

/-- One simulated path (monte_carlo.cpp lines 250-256): from a
standard-normal draw `z`, the terminal price
`ST = S0 * exp(drift + volatility * z)` with the precomputed constants
`drift = (r - 0.5*sigma*sigma)*T` and `volatility = sigma*sqrt(T)`
(lines 195-196), followed by the payoff. -/
noncomputable def pathPayoff (S0 K r sigma T : ℝ) (isCall : Bool) (z : ℝ) : ℝ :=
  let drift := (r - 0.5 * sigma * sigma) * T
  let volatility := sigma * Real.sqrt T
  let ST := S0 * Real.exp (drift + volatility * z)
  calculate_payoff ST K isCall

/-- The validation error cases (monte_carlo.cpp lines 157-177; each is a
`std::invalid_argument` throw). -/
inductive ValidationError where
  | S0NotPositive
  | KNotPositive
  | sigmaNotPositive
  | TNotPositive
  | numTrialsNotPositive
deriving DecidableEq, Repr

/-- Input validation (monte_carlo.cpp lines 157-177): the five checks,
in source order; `none` means no exception is thrown.  `r` is not
validated (any real is accepted). -/
noncomputable def validate (S0 K sigma T : ℝ) (numTrials : ℤ) :
    Option ValidationError :=
  if S0 ≤ 0 then some .S0NotPositive
  else if K ≤ 0 then some .KNotPositive
  else if sigma ≤ 0 then some .sigmaNotPositive
  else if T ≤ 0 then some .TNotPositive
  else if numTrials ≤ 0 then some .numTrialsNotPositive
  else none

/-- Thread-count resolution (monte_carlo.cpp lines 180-188): a
non-positive request means auto-detect (`hw`, the value of
`std::thread::hardware_concurrency()`, with fallback 4 when that is 0);
the result is then clamped to at most `numTrials`. -/
def resolveNumThreads (requested : ℤ) (hw : ℕ) (numTrials : ℕ) : ℕ :=
  let t := if requested ≤ 0 then (if hw = 0 then 4 else hw) else requested.toNat
  min t numTrials

/-- Length of the trial range handed to worker `i`
(monte_carlo.cpp line 273): `trials_per_thread` plus one extra trial
when `i < remaining_trials`, where `trials_per_thread = n / k` and
`remaining_trials = n % k` (lines 191-192). -/
def threadLen (n k i : ℕ) : ℕ :=
  n / k + (if i < n % k then 1 else 0)

/-- The thread-launch loop of monte_carlo.cpp lines 270-277, restricted
to the ranges it hands out: starting from trial index `start` and worker
index `i`, emit `fuel` half-open ranges `[start_trial, end_trial)`. -/
def threadRangesAux (n k : ℕ) : ℕ → ℕ → ℕ → List (ℕ × ℕ)
  | 0, _, _ => []
  | fuel + 1, i, start =>
      (start, start + threadLen n k i) ::
        threadRangesAux n k fuel (i + 1) (start + threadLen n k i)

/-- All `k` trial ranges produced by the launch loop (monte_carlo.cpp
lines 270-277), starting at trial 0 and worker 0. -/
def threadRanges (n k : ℕ) : List (ℕ × ℕ) :=
  threadRangesAux n k k 0 0

/-- The worker accumulation loop (monte_carlo.cpp lines 215-266), given
the per-trial payoffs of its range: fold each payoff into the running
sum, the running sum of squares, and the count. -/
def workerStep (acc : ThreadResult) (p : ℝ) : ThreadResult :=
  ⟨acc.sum + p, acc.sum_squared + p * p, acc.count + 1⟩

/-- A worker's emitted triple (monte_carlo.cpp lines 217-266) over the
payoffs of its trial range. -/
def workerAccum (ps : List ℝ) : ThreadResult :=
  ps.foldl workerStep ⟨0, 0, 0⟩

/-- The combine loop for sums (monte_carlo.cpp lines 286-295):
`total_sum += result.sum` over the thread results, in order. -/
def totalSum (rs : List ThreadResult) : ℝ :=
  rs.foldl (fun a t => a + t.sum) 0

/-- The combine loop for sums of squares (monte_carlo.cpp lines
286-295): `total_sum_squared += result.sum_squared`. -/
def totalSumSquared (rs : List ThreadResult) : ℝ :=
  rs.foldl (fun a t => a + t.sum_squared) 0

/-- The combine loop for counts (monte_carlo.cpp lines 286-295):
`total_count += result.count`. -/
def totalCount (rs : List ThreadResult) : ℕ :=
  rs.foldl (fun a t => a + t.count) 0

/-- The multi-threaded path's variance (monte_carlo.cpp line 302):
the E[X²] - (E[X])² identity, dividing by `total_count`. -/
noncomputable def aggVariance (rs : List ThreadResult) : ℝ :=
  let mean := totalSum rs / (totalCount rs : ℝ)
  totalSumSquared rs / (totalCount rs : ℝ) - mean * mean

/-- The aggregation stage of the multi-threaded path (monte_carlo.cpp
lines 285-311), given the precomputed `discount = exp(-r*T)` of line 197
and the per-thread triples.  Note the source applies no zero-count
check and no clamping of a negative variance. -/
noncomputable def aggregateMT (discount : ℝ) (rs : List ThreadResult) :
    PricingResult :=
  let mean := totalSum rs / (totalCount rs : ℝ)
  let discounted_mean := mean * discount
  let std_dev := Real.sqrt (aggVariance rs)
  let margin_of_error :=
    1.96 * (std_dev / Real.sqrt (totalCount rs : ℝ)) * discount
  ⟨discounted_mean, discounted_mean - margin_of_error,
    discounted_mean + margin_of_error⟩

/-- The multi-threaded engine `monte_carlo_black_scholes_mt`
(monte_carlo.cpp lines 153-312): validate, resolve the thread count,
partition the trials, run one worker per range on the draws oracle, and
aggregate.  A thrown `std::invalid_argument` is the `.error` branch; it
is taken before any range is built or worker run. -/
noncomputable def monte_carlo_black_scholes_mt (S0 K r sigma T : ℝ)
    (isCall : Bool) (numTrials requested : ℤ) (hw : ℕ) (draws : ℕ → ℝ) :
    Except ValidationError PricingResult :=
  match validate S0 K sigma T numTrials with
  | some e => .error e
  | none =>
      let n := numTrials.toNat
      let k := resolveNumThreads requested hw n
      let discount := Real.exp (-r * T)
      let stats := (threadRanges n k).map fun rg =>
        workerAccum ((List.range' rg.1 (rg.2 - rg.1)).map
          fun j => pathPayoff S0 K r sigma T isCall (draws j))
      .ok (aggregateMT discount stats)

/-- Single-threaded mean of the payoff vector (monte_carlo.cpp lines
126-127): `std::accumulate` then division by `numTrials` (the length of
the payoff vector). -/
noncomputable def meanST (ps : List ℝ) : ℝ :=
  ps.foldl (fun a p => a + p) 0 / (ps.length : ℝ)

/-- Single-threaded variance (monte_carlo.cpp lines 131-137): the sum of
squared deviations from the mean, divided by `numTrials - 1`. -/
noncomputable def varianceST (ps : List ℝ) : ℝ :=
  ps.foldl (fun v p => v + (p - meanST ps) * (p - meanST ps)) 0 /
    ((ps.length : ℝ) - 1)

/-- Abstract IEEE-754 double: `fin x` is a finite double idealized as
the real `x`; `nonfin` is any non-finite double (±inf or NaN). -/
inductive FpVal where
  | fin : ℝ → FpVal
  | nonfin : FpVal

/-- IEEE addition in the abstract model: finite + finite is finite
(overflow to inf is not modelled); a non-finite operand always yields a
non-finite result (inf+x = inf, NaN+x = NaN, inf + (-inf) = NaN). -/
noncomputable def addF : FpVal → FpVal → FpVal
  | .fin a, .fin b => .fin (a + b)
  | _, _ => .nonfin

/-- IEEE subtraction in the abstract model, as `addF`. -/
noncomputable def subF : FpVal → FpVal → FpVal
  | .fin a, .fin b => .fin (a - b)
  | _, _ => .nonfin

/-- IEEE multiplication in the abstract model: a non-finite operand
always yields a non-finite result (inf*0 = NaN, inf*x = ±inf, NaN*x =
NaN). -/
noncomputable def mulF : FpVal → FpVal → FpVal
  | .fin a, .fin b => .fin (a * b)
  | _, _ => .nonfin

/-- IEEE division in the abstract model: a finite value divided by exact
zero is non-finite (±inf or NaN); a non-finite dividend stays
non-finite.  (The engine only ever divides by finite trial counts, so
the `divF _ nonfin` cell is never exercised.) -/
noncomputable def divF : FpVal → FpVal → FpVal
  | .fin a, .fin b => if b = 0 then .nonfin else .fin (a / b)
  | _, _ => .nonfin

/-- IEEE square root in the abstract model: the square root of a
negative finite double is NaN (non-finite); sqrt(inf) = inf and
sqrt(NaN) = NaN are non-finite. -/
noncomputable def sqrtF : FpVal → FpVal
  | .fin a => if a < 0 then .nonfin else .fin (Real.sqrt a)
  | .nonfin => .nonfin

/-- The worker triple in the abstract IEEE model. -/
structure ThreadResultF where
  sum : FpVal
  sum_squared : FpVal
  count : ℕ

/-- The engine output triple in the abstract IEEE model. -/
structure FpPricing where
  price : FpVal
  lower : FpVal
  upper : FpVal

/-- The worker accumulation step (monte_carlo.cpp lines 258-261) in the
abstract IEEE model: `local_sum += payoff`,
`local_sum_squared += payoff * payoff`, `local_count++`. -/
noncomputable def workerStepF (acc : ThreadResultF) (p : FpVal) : ThreadResultF :=
  ⟨addF acc.sum p, addF acc.sum_squared (mulF p p), acc.count + 1⟩

/-- A worker's emitted triple (monte_carlo.cpp lines 217-266) in the
abstract IEEE model, over the payoff values of its trial range. -/
noncomputable def workerAccumF (ps : List FpVal) : ThreadResultF :=
  ps.foldl workerStepF ⟨.fin 0, .fin 0, 0⟩

/-- The combine loop for sums (monte_carlo.cpp lines 286-295) in the
abstract IEEE model. -/
noncomputable def totalSumF (rs : List ThreadResultF) : FpVal :=
  rs.foldl (fun a t => addF a t.sum) (.fin 0)

/-- The combine loop for sums of squares (monte_carlo.cpp lines
286-295) in the abstract IEEE model. -/
noncomputable def totalSumSquaredF (rs : List ThreadResultF) : FpVal :=
  rs.foldl (fun a t => addF a t.sum_squared) (.fin 0)

/-- The combine loop for counts (monte_carlo.cpp lines 286-295); the
count is a C++ `int`, finite by construction. -/
def totalCountF (rs : List ThreadResultF) : ℕ :=
  rs.foldl (fun a t => a + t.count) 0

/-- The multi-threaded path's variance (monte_carlo.cpp line 302) in
the abstract IEEE model. -/
noncomputable def aggVarianceF (rs : List ThreadResultF) : FpVal :=
  let mean := divF (totalSumF rs) (.fin (totalCountF rs : ℝ))
  subF (divF (totalSumSquaredF rs) (.fin (totalCountF rs : ℝ)))
    (mulF mean mean)

/-- The aggregation stage of the multi-threaded path (monte_carlo.cpp
lines 285-311) in the abstract IEEE model: a faithful transcription,
with no zero-count check and no clamping of a negative variance before
`sqrt`. -/
noncomputable def aggregateF (discount : FpVal) (rs : List ThreadResultF) :
    FpPricing :=
  let mean := divF (totalSumF rs) (.fin (totalCountF rs : ℝ))
  let discounted_mean := mulF mean discount
  let std_dev := sqrtF (aggVarianceF rs)
  let margin_of_error :=
    mulF (mulF (.fin 1.96) (divF std_dev (sqrtF (.fin (totalCountF rs : ℝ)))))
      discount
  ⟨discounted_mean, subF discounted_mean margin_of_error,
    addF discounted_mean margin_of_error⟩

/-- The single-threaded path `monte_carlo_black_scholes`
(monte_carlo.cpp lines 53-147) in the abstract IEEE model, given the
standard-normal draws consumed by its loop (`zs.length = numTrials`).
The per-trial payoffs are finite doubles produced by `pathPayoff`; the
statistics of lines 126-146 are computed with the IEEE-abstract
operations, in particular the division of the squared-deviation sum by
`numTrials - 1` on line 137. -/
noncomputable def monte_carlo_black_scholes_F (S0 K r sigma T : ℝ)
    (isCall : Bool) (zs : List ℝ) : FpPricing :=
  let payoffs : List FpVal :=
    zs.map fun z => .fin (pathPayoff S0 K r sigma T isCall z)
  let n : ℕ := zs.length
  let discount : FpVal := .fin (Real.exp (-r * T))
  let sum := payoffs.foldl addF (.fin 0)
  let mean := divF sum (.fin (n : ℝ))
  let discounted_mean := mulF mean discount
  let variance :=
    divF (payoffs.foldl (fun v p => addF v (mulF (subF p mean) (subF p mean)))
      (.fin 0)) (.fin ((n : ℝ) - 1))
  let std_dev := sqrtF variance
  let margin_of_error :=
    mulF (mulF (.fin 1.96) (divF std_dev (sqrtF (.fin (n : ℝ))))) discount
  ⟨discounted_mean, subF discounted_mean margin_of_error,
    addF discounted_mean margin_of_error⟩

/-- A left fold that only adds `g` of each element equals the initial
value plus the sum of the mapped list. -/
lemma foldl_add_eq {α M : Type*} [AddCommMonoid M] (g : α → M) (ps : List α) :
    ∀ c : M, ps.foldl (fun a p => a + g p) c = c + (ps.map g).sum := by
  induction ps with
  | nil => intro c; simp
  | cons p t ih => intro c; simpa [add_assoc] using ih (c + g p)

/-- The sum-combining loop computes the sum of the per-worker sums. -/
lemma totalSum_eq (rs : List ThreadResult) :
    totalSum rs = (rs.map ThreadResult.sum).sum := by
  simpa [totalSum] using foldl_add_eq ThreadResult.sum rs 0

/-- The squared-sum-combining loop computes the sum of the per-worker
sums of squares. -/
lemma totalSumSquared_eq (rs : List ThreadResult) :
    totalSumSquared rs = (rs.map ThreadResult.sum_squared).sum := by
  simpa [totalSumSquared] using foldl_add_eq ThreadResult.sum_squared rs 0

/-- The count-combining loop computes the sum of the per-worker
counts. -/
lemma totalCount_eq (rs : List ThreadResult) :
    totalCount rs = (rs.map ThreadResult.count).sum := by
  simpa [totalCount] using foldl_add_eq ThreadResult.count rs 0

/-- Closed form of the worker accumulation loop from any starting
accumulator. -/
lemma workerAccum_foldl (ps : List ℝ) : ∀ acc : ThreadResult,
    ps.foldl workerStep acc =
      ⟨acc.sum + ps.sum, acc.sum_squared + (ps.map fun p => p * p).sum,
        acc.count + ps.length⟩ := by
  induction ps with
  | nil => intro acc; cases acc; simp
  | cons p t ih =>
      intro acc
      simp only [List.foldl_cons, List.sum_cons, List.map_cons,
        List.length_cons, ih, workerStep, ThreadResult.mk.injEq]
      refine ⟨by ring, by ring, by omega⟩

/-- The worker emits exactly the payoff sum, the sum of squared
payoffs, and the number of trials it processed. -/
lemma workerAccum_eq (ps : List ℝ) :
    workerAccum ps = ⟨ps.sum, (ps.map fun p => p * p).sum, ps.length⟩ := by
  simpa [workerAccum] using workerAccum_foldl ps ⟨0, 0, 0⟩

/-- Quotient of square roots is the square root of the quotient, for a
positive denominator (both sides are zero when the numerator is
negative). -/
lemma sqrt_div_sqrt (v c : ℝ) (hc : 0 < c) :
    Real.sqrt v / Real.sqrt c = Real.sqrt (v / c) := by
  rcases le_or_lt 0 v with hv | hv
  · rw [Real.sqrt_div hv]
  · rw [Real.sqrt_eq_zero'.mpr hv.le,
      Real.sqrt_eq_zero'.mpr (div_neg_of_neg_of_pos hv hc).le, zero_div]

/-- The Aggregator contract exactly as §4.4 of the specification words
it: totals are the sums of the per-worker triples,
`mean = totalSum / totalCount`,
`variance = totalSumSquares/totalCount - mean²`,
`stdError = sqrt(variance / totalCount)`, `discount = exp(-r*T)`,
`price = mean * discount`, `marginOfError = 1.96 * stdError * discount`,
`lower = price - marginOfError`, `upper = price + marginOfError`. -/
noncomputable def specAggregate (r T : ℝ) (rs : List ThreadResult) :
    PricingResult :=
  let tc : ℝ := ((rs.map ThreadResult.count).sum : ℕ)
  let ts := (rs.map ThreadResult.sum).sum
  let tss := (rs.map ThreadResult.sum_squared).sum
  let mean := ts / tc
  let variance := tss / tc - mean * mean
  let stdError := Real.sqrt (variance / tc)
  let discount := Real.exp (-r * T)
  let price := mean * discount
  let marginOfError := 1.96 * stdError * discount
  ⟨price, price - marginOfError, price + marginOfError⟩

/-- C1: for every list of per-worker partial statistics with positive
total count, the multi-threaded aggregation stage computes exactly the
specification's formulas: mean = totalSum/totalCount,
stdError = sqrt(variance/totalCount), discount = exp(-r*T),
price = mean*discount, marginOfError = 1.96*stdError*discount,
lower = price - marginOfError, upper = price + marginOfError, with
totalSum and totalCount the sums of the per-worker sums and counts. -/
theorem aggregateMT_matches_spec (r T : ℝ) (rs : List ThreadResult)
    (h : 0 < totalCount rs) :
    aggregateMT (Real.exp (-r * T)) rs = specAggregate r T rs := by
  have hc : (0 : ℝ) < ((rs.map ThreadResult.count).sum : ℕ) := by
    rw [← totalCount_eq]; exact_mod_cast h
  simp only [aggregateMT, specAggregate, aggVariance, totalSum_eq,
    totalSumSquared_eq, totalCount_eq, PricingResult.mk.injEq]
  rw [sqrt_div_sqrt _ _ hc]
  refine ⟨?_, ?_, ?_⟩ <;> first | rfl | trivial

/-- Witness for C1 at the single triple (sum 1, sum of squares 1,
count 1) with r = 0, T = 1. -/
theorem aggregateMT_matches_spec_witness :
    0 < totalCount [(⟨1, 1, 1⟩ : ThreadResult)] ∧
      aggregateMT (Real.exp (-(0 : ℝ) * 1)) [(⟨1, 1, 1⟩ : ThreadResult)] =
        specAggregate 0 1 [(⟨1, 1, 1⟩ : ThreadResult)] :=
  ⟨by simp [totalCount],
    aggregateMT_matches_spec 0 1 _ (by simp [totalCount])⟩

/-- The trial index at which worker `i`'s range begins: each earlier
worker contributes `n / k` trials plus one extra for the first
`n % k` workers. -/
def threadStart (n k i : ℕ) : ℕ :=
  i * (n / k) + min i (n % k)

/-- Consecutive range starts differ by exactly the assigned length. -/
lemma threadStart_succ (n k i : ℕ) :
    threadStart n k (i + 1) = threadStart n k i + threadLen n k i := by
  unfold threadStart threadLen
  rcases Nat.lt_or_ge i (n % k) with h | h
  · rw [if_pos h, Nat.min_eq_left (Nat.succ_le_of_lt h), Nat.min_eq_left h.le,
      Nat.succ_mul]
    omega
  · rw [if_neg (by omega), Nat.min_eq_right h, Nat.min_eq_right (by omega),
      Nat.succ_mul]
    omega

/-- Range starts are monotone in the worker index. -/
lemma threadStart_le (n k i : ℕ) : ∀ d : ℕ,
    threadStart n k i ≤ threadStart n k (i + d) := by
  intro d
  induction d with
  | zero => exact le_rfl
  | succ d ih =>
      calc threadStart n k i ≤ threadStart n k (i + d) := ih
        _ ≤ threadStart n k (i + d) + threadLen n k (i + d) := Nat.le_add_right _ _
        _ = threadStart n k (i + (d + 1)) := by
            rw [← threadStart_succ, Nat.add_assoc]

/-- Closed form of the launch loop: starting at worker `i` with the
correct start index, it emits exactly the ranges of workers
`i, i+1, ...`. -/
lemma threadRangesAux_eq (n k : ℕ) : ∀ (fuel i : ℕ),
    threadRangesAux n k fuel i (threadStart n k i) =
      (List.range' i fuel).map
        fun j => (threadStart n k j, threadStart n k j + threadLen n k j) := by
  intro fuel
  induction fuel with
  | zero => intro i; simp [threadRangesAux]
  | succ fuel ih =>
      intro i
      rw [List.range'_succ, List.map_cons]
      show (threadStart n k i, threadStart n k i + threadLen n k i) ::
          threadRangesAux n k fuel (i + 1)
            (threadStart n k i + threadLen n k i) = _
      rw [← threadStart_succ, ih (i + 1)]

/-- The list of launched ranges in closed form. -/
lemma threadRanges_eq (n k : ℕ) :
    threadRanges n k = (List.range k).map
      fun j => (threadStart n k j, threadStart n k j + threadLen n k j) := by
  have h0 : threadStart n k 0 = 0 := by simp [threadStart]
  have := threadRangesAux_eq n k k 0
  rw [h0] at this
  rw [threadRanges, this, List.range_eq_range']

/-- For a positive worker count, the start index past the last worker
is the total trial count. -/
lemma threadStart_last (n k : ℕ) (hk : 0 < k) : threadStart n k k = n := by
  unfold threadStart
  rw [Nat.min_eq_right (Nat.mod_lt n hk).le]
  exact Nat.div_add_mod n k

/-- Concatenating the trial ranges of workers `i, i+1, ...` yields one
contiguous run of trial indices. -/
lemma cover_flatMap_aux (n k : ℕ) : ∀ (cnt i : ℕ),
    ((List.range' i cnt).flatMap
        fun j => List.range' (threadStart n k j) (threadLen n k j)) =
      List.range' (threadStart n k i)
        (threadStart n k (i + cnt) - threadStart n k i) := by
  intro cnt
  induction cnt with
  | zero => intro i; simp
  | succ cnt ih =>
      intro i
      rw [List.range'_succ, List.flatMap_cons, ih (i + 1)]
      have hs : threadStart n k (i + 1) = threadStart n k i + threadLen n k i :=
        threadStart_succ n k i
      have hmono : threadStart n k (i + 1) ≤ threadStart n k (i + (cnt + 1)) := by
        have h := threadStart_le n k (i + 1) cnt
        rwa [show i + 1 + cnt = i + (cnt + 1) from by omega] at h
      have happ := List.range'_append (threadStart n k i) (threadLen n k i)
        (threadStart n k (i + (cnt + 1)) - threadStart n k (i + 1)) 1
      rw [one_mul, ← hs] at happ
      rw [show i + 1 + cnt = i + (cnt + 1) from by omega, happ]
      congr 1
      omega

/-- The launched ranges cover `[0, n)` exactly, contiguously and in
order. -/
lemma threadRanges_cover (n k : ℕ) (hk : 0 < k) :
    ((threadRanges n k).flatMap fun p => List.range' p.1 (p.2 - p.1)) =
      List.range n := by
  rw [threadRanges_eq, List.flatMap_map]
  have hf : (fun j => List.range'
      ((threadStart n k j, threadStart n k j + threadLen n k j).1)
      ((threadStart n k j, threadStart n k j + threadLen n k j).2 -
        (threadStart n k j, threadStart n k j + threadLen n k j).1)) =
      fun j => List.range' (threadStart n k j) (threadLen n k j) := by
    funext j
    simp [Nat.add_sub_cancel_left]
  rw [hf, List.range_eq_range', cover_flatMap_aux n k k 0]
  have h0 : threadStart n k 0 = 0 := by simp [threadStart]
  rw [h0, Nat.zero_add, threadStart_last n k hk, Nat.sub_zero,
    List.range_eq_range']

/-- The individual range assigned to worker `i`. -/
lemma threadRanges_get (n k i : ℕ) (h : i < (threadRanges n k).length) :
    (threadRanges n k).get ⟨i, h⟩ =
      (threadStart n k i, threadStart n k i + threadLen n k i) := by
  simp only [List.get_eq_getElem, threadRanges_eq, List.getElem_map,
    List.getElem_range]

/-- Every assigned length is `n / k` or `n / k + 1`. -/
lemma threadLen_bounds (n k j : ℕ) :
    n / k ≤ threadLen n k j ∧ threadLen n k j ≤ n / k + 1 := by
  unfold threadLen
  split_ifs <;> omega

/-- The partitioning contract exactly as §4.3 and §8 of the
specification word it, for trial count `n` and worker count `k`: the
returned ranges concatenate to exactly `[0, n)` (contiguity, no overlap,
no gap), are pairwise disjoint, have lengths differing by at most one,
number exactly `k`, give worker `i` exactly
`n/k + (1 if i < n mod k else 0)` trials, and give no worker zero
trials. -/
def partitionSpec (n k : ℕ) : Prop :=
  ((threadRanges n k).flatMap fun p => List.range' p.1 (p.2 - p.1)) =
      List.range n ∧
  List.Pairwise (fun p q => p.2 ≤ q.1) (threadRanges n k) ∧
  (∀ p ∈ threadRanges n k, ∀ q ∈ threadRanges n k,
      p.2 - p.1 ≤ (q.2 - q.1) + 1) ∧
  (threadRanges n k).length = k ∧
  (∀ i, ∀ h : i < (threadRanges n k).length,
      ((threadRanges n k).get ⟨i, h⟩).2 - ((threadRanges n k).get ⟨i, h⟩).1 =
        n / k + (if i < n % k then 1 else 0)) ∧
  (∀ p ∈ threadRanges n k, p.1 < p.2)

/-- The launch loop satisfies the partitioning contract whenever
`1 ≤ k ≤ n`. -/
lemma partition_ok (n k : ℕ) (hk : 0 < k) (hkn : k ≤ n) :
    partitionSpec n k := by
  have hdiv : 1 ≤ n / k := (Nat.one_le_div_iff hk).mpr hkn
  refine ⟨threadRanges_cover n k hk, ?_, ?_, ?_, ?_, ?_⟩
  · rw [threadRanges_eq, List.pairwise_map]
    refine (List.pairwise_lt_range k).imp ?_
    intro a b hab
    have h1 : threadStart n k a + threadLen n k a = threadStart n k (a + 1) :=
      (threadStart_succ n k a).symm
    have h2 := threadStart_le n k (a + 1) (b - (a + 1))
    rw [show a + 1 + (b - (a + 1)) = b from by omega] at h2
    simpa [h1] using h2
  · intro p hp q hq
    rw [threadRanges_eq] at hp hq
    obtain ⟨a, _, rfl⟩ := List.mem_map.mp hp
    obtain ⟨b, _, rfl⟩ := List.mem_map.mp hq
    have ha := threadLen_bounds n k a
    have hb := threadLen_bounds n k b
    simp only [Nat.add_sub_cancel_left]
    omega
  · rw [threadRanges_eq]; simp
  · intro i h
    rw [threadRanges_get]
    simp [threadLen, Nat.add_sub_cancel_left]
  · intro p hp
    rw [threadRanges_eq] at hp
    obtain ⟨a, _, rfl⟩ := List.mem_map.mp hp
    have ha := threadLen_bounds n k a
    simp only []
    omega

/-- The resolved worker count is positive when the trial count is. -/
lemma resolveNumThreads_pos (requested : ℤ) (hw n : ℕ) (h : 0 < n) :
    0 < resolveNumThreads requested hw n := by
  unfold resolveNumThreads
  dsimp only
  split_ifs <;> (rw [lt_min_iff]; constructor <;> omega)

/-- The resolved worker count never exceeds the trial count. -/
lemma resolveNumThreads_le (requested : ℤ) (hw n : ℕ) :
    resolveNumThreads requested hw n ≤ n := by
  unfold resolveNumThreads
  dsimp only
  exact Nat.min_le_right _ _

/-- C2: for every positive trial count and any requested worker count
(any hardware-concurrency value), the launched trial ranges are pairwise
disjoint, contiguous, cover exactly `[0, numTrials)`, differ in length
by at most 1, give the first `numTrials mod workerCount` workers exactly
one extra trial each, and give no worker zero trials. -/
theorem threadRanges_partition (numTrials : ℕ) (requested : ℤ) (hw : ℕ)
    (h : 0 < numTrials) :
    partitionSpec numTrials (resolveNumThreads requested hw numTrials) :=
  partition_ok _ _ (resolveNumThreads_pos requested hw numTrials h)
    (resolveNumThreads_le requested hw numTrials)

/-- Witness for C2 at numTrials = 5 with auto-detected worker count and
hardware concurrency unavailable (0, so the fallback 4 is used). -/
theorem threadRanges_partition_witness :
    0 < 5 ∧ partitionSpec 5 (resolveNumThreads (-1) 0 5) :=
  ⟨by norm_num, threadRanges_partition 5 (-1) 0 (by norm_num)⟩

/-- Validation succeeds exactly when every checked parameter is
strictly positive. -/
lemma validate_eq_none_iff (S0 K sigma T : ℝ) (n : ℤ) :
    validate S0 K sigma T n = none ↔
      0 < S0 ∧ 0 < K ∧ 0 < sigma ∧ 0 < T ∧ 0 < n := by
  unfold validate
  split_ifs with h1 h2 h3 h4 h5
  · exact iff_of_false (by simp) fun hc => absurd hc.1 (not_lt.mpr h1)
  · exact iff_of_false (by simp) fun hc => absurd hc.2.1 (not_lt.mpr h2)
  · exact iff_of_false (by simp) fun hc => absurd hc.2.2.1 (not_lt.mpr h3)
  · exact iff_of_false (by simp) fun hc => absurd hc.2.2.2.1 (not_lt.mpr h4)
  · exact iff_of_false (by simp) fun hc => absurd hc.2.2.2.2 (by omega)
  · exact iff_of_true rfl
      ⟨not_le.mp h1, not_le.mp h2, not_le.mp h3, not_le.mp h4, by omega⟩

/-- C4: the multi-threaded engine raises a validation error exactly for
a non-positive S0, K, sigma, T or numTrials; the error is raised
before any trial range is built or worker run (the error branch of the
embedding bypasses them), and for strictly positive inputs no
validation error is raised. -/
theorem mt_validation (S0 K r sigma T : ℝ) (isCall : Bool)
    (numTrials requested : ℤ) (hw : ℕ) (draws : ℕ → ℝ) :
    ((S0 ≤ 0 ∨ K ≤ 0 ∨ sigma ≤ 0 ∨ T ≤ 0 ∨ numTrials ≤ 0) →
      ∃ e, monte_carlo_black_scholes_mt S0 K r sigma T isCall numTrials
        requested hw draws = .error e) ∧
    (0 < S0 → 0 < K → 0 < sigma → 0 < T → 0 < numTrials →
      ∃ res, monte_carlo_black_scholes_mt S0 K r sigma T isCall numTrials
        requested hw draws = .ok res) := by
  constructor
  · intro h
    rcases hv : validate S0 K sigma T numTrials with _ | e
    · exfalso
      have hall := (validate_eq_none_iff S0 K sigma T numTrials).mp hv
      rcases h with h | h | h | h | h
      · exact absurd hall.1 (not_lt.mpr h)
      · exact absurd hall.2.1 (not_lt.mpr h)
      · exact absurd hall.2.2.1 (not_lt.mpr h)
      · exact absurd hall.2.2.2.1 (not_lt.mpr h)
      · exact absurd hall.2.2.2.2 (by omega)
    · exact ⟨e, by simp [monte_carlo_black_scholes_mt, hv]⟩
  · intro h1 h2 h3 h4 h5
    have hv : validate S0 K sigma T numTrials = none :=
      (validate_eq_none_iff _ _ _ _ _).mpr ⟨h1, h2, h3, h4, h5⟩
    rcases hres : monte_carlo_black_scholes_mt S0 K r sigma T isCall numTrials
        requested hw draws with e | res
    · exfalso
      unfold monte_carlo_black_scholes_mt at hres
      rw [hv] at hres
      exact Except.noConfusion hres
    · exact ⟨res, rfl⟩

/-- Witness for C4: S0 = 0 yields a validation error; the valid input
S0 = K = 100, r = 0.05, sigma = 0.2, T = 1, 1000 trials yields a
result. -/
theorem mt_validation_witness :
    (∃ e, monte_carlo_black_scholes_mt 0 100 0.05 0.2 1 true 1000 4 8
        (fun _ => 0) = .error e) ∧
    (∃ res, monte_carlo_black_scholes_mt 100 100 0.05 0.2 1 true 1000 4 8
        (fun _ => 0) = .ok res) :=
  ⟨(mt_validation 0 100 0.05 0.2 1 true 1000 4 8 (fun _ => 0)).1
      (Or.inl (by norm_num)),
    (mt_validation 100 100 0.05 0.2 1 true 1000 4 8 (fun _ => 0)).2
      (by norm_num) (by norm_num) (by norm_num) (by norm_num) (by norm_num)⟩

/-- A conditional clamp at zero is the max with zero. -/
lemma ite_pos_eq_max (a : ℝ) : (if a > 0 then a else 0) = max a 0 := by
  rcases le_or_lt a 0 with h | h
  · rw [if_neg (not_lt.mpr h), max_eq_right h]
  · rw [if_pos h, max_eq_left h.le]

/-- A positivity-guarded difference is the max of the difference with
zero. -/
lemma ite_lt_max_left (a b : ℝ) :
    (if b < a then a - b else 0) = max (a - b) 0 := by
  rcases le_or_lt a b with h | h
  · rw [if_neg (not_lt.mpr h), max_eq_right (sub_nonpos.mpr h)]
  · rw [if_pos h, max_eq_left (by linarith)]

/-- C5: every trial's terminal price is
`ST = S0 * exp(drift + volatility * z)` with
`drift = (r - 0.5*sigma^2)*T` and `volatility = sigma*sqrt(T)`, and the
payoff is `max(ST - K, 0)` for a call and `max(K - ST, 0)` for a
put. -/
theorem pathPayoff_formula (S0 K r sigma T z : ℝ) (isCall : Bool) :
    pathPayoff S0 K r sigma T isCall z =
      if isCall then
        max (S0 * Real.exp ((r - 0.5 * sigma ^ 2) * T +
          sigma * Real.sqrt T * z) - K) 0
      else
        max (K - S0 * Real.exp ((r - 0.5 * sigma ^ 2) * T +
          sigma * Real.sqrt T * z)) 0 := by
  have harg : r - 0.5 * sigma * sigma = r - 0.5 * sigma ^ 2 := by ring
  cases isCall <;> simp [pathPayoff, calculate_payoff, harg] <;>
    first
      | rfl
      | exact ite_lt_max_left _ _

/-- C7: the aggregation stage is order-independent: permuting the list
of per-worker statistics yields an identical pricing result. -/
theorem aggregateMT_perm_invariant (r T : ℝ) (rs₁ rs₂ : List ThreadResult)
    (h : rs₁.Perm rs₂) :
    aggregateMT (Real.exp (-r * T)) rs₁ =
      aggregateMT (Real.exp (-r * T)) rs₂ := by
  have hs : totalSum rs₁ = totalSum rs₂ := by
    rw [totalSum_eq, totalSum_eq]; exact (h.map _).sum_eq
  have hss : totalSumSquared rs₁ = totalSumSquared rs₂ := by
    rw [totalSumSquared_eq, totalSumSquared_eq]; exact (h.map _).sum_eq
  have hc : totalCount rs₁ = totalCount rs₂ := by
    rw [totalCount_eq, totalCount_eq]; exact (h.map _).sum_eq
  simp [aggregateMT, aggVariance, hs, hss, hc]

/-- Witness for C7: swapping two worker triples leaves the result
unchanged. -/
theorem aggregateMT_perm_invariant_witness :
    aggregateMT (Real.exp (-(0 : ℝ) * 1))
        [(⟨1, 2, 3⟩ : ThreadResult), ⟨4, 5, 6⟩] =
      aggregateMT (Real.exp (-(0 : ℝ) * 1))
        [(⟨4, 5, 6⟩ : ThreadResult), ⟨1, 2, 3⟩] :=
  aggregateMT_perm_invariant 0 1 _ _ (List.Perm.swap _ _ _)

/-- Sum of squared deviations from an arbitrary reference `m`. -/
lemma sum_sq_dev (m : ℝ) : ∀ ps : List ℝ,
    (ps.map fun p => (p - m) * (p - m)).sum =
      (ps.map fun p => p * p).sum - 2 * m * ps.sum +
        (ps.length : ℝ) * m * m := by
  intro ps
  induction ps with
  | nil => simp
  | cons p t ih =>
      simp only [List.map_cons, List.sum_cons, List.length_cons, ih]
      push_cast
      ring

/-- The single-threaded payoff sum accumulator equals the list sum. -/
lemma listSum_foldl (ps : List ℝ) :
    ps.foldl (fun a p => a + p) 0 = ps.sum := by
  simpa using foldl_add_eq id ps 0

/-- C9: for the same payoff data with at least two trials, the
single-threaded variance (dividing by numTrials - 1) equals n/(n-1)
times the multi-threaded variance (the E[X²]-E[X]² identity dividing by
totalCount); the two variants disagree, e.g. on the payoffs [0, 1]. -/
theorem varianceST_vs_MT :
    (∀ ps : List ℝ, 2 ≤ ps.length →
      varianceST ps = ((ps.length : ℝ) / ((ps.length : ℝ) - 1)) *
        aggVariance [workerAccum ps]) ∧
    varianceST [0, 1] ≠ aggVariance [workerAccum [0, 1]] := by
  constructor
  · intro ps h
    have hn : (2 : ℝ) ≤ (ps.length : ℝ) := by exact_mod_cast h
    have hn0 : (ps.length : ℝ) ≠ 0 := by linarith
    have hn1 : (ps.length : ℝ) - 1 ≠ 0 := by
      intro hc; rw [sub_eq_zero] at hc; rw [hc] at hn; linarith
    have hmean : meanST ps = ps.sum / (ps.length : ℝ) := by
      rw [meanST, listSum_foldl]
    have hvar : varianceST ps =
        ((ps.map fun p => p * p).sum - 2 * meanST ps * ps.sum +
          (ps.length : ℝ) * meanST ps * meanST ps) / ((ps.length : ℝ) - 1) := by
      rw [varianceST, foldl_add_eq (fun p => (p - meanST ps) * (p - meanST ps))
        ps 0, zero_add, sum_sq_dev]
    have hagg : aggVariance [workerAccum ps] =
        (ps.map fun p => p * p).sum / (ps.length : ℝ) -
          (ps.sum / (ps.length : ℝ)) * (ps.sum / (ps.length : ℝ)) := by
      simp [aggVariance, totalSum_eq, totalSumSquared_eq, totalCount_eq,
        workerAccum_eq]
    rw [hvar, hagg, hmean]
    field_simp
    ring
  · simp only [varianceST, meanST, aggVariance, workerAccum, workerStep,
      totalSum, totalSumSquared, totalCount, List.foldl]
    norm_num

/-- Witness for C9 at the payoff data [0, 1]. -/
theorem varianceST_vs_MT_witness :
    2 ≤ ([0, 1] : List ℝ).length ∧
      varianceST [0, 1] =
        ((([0, 1] : List ℝ).length : ℝ) /
          ((([0, 1] : List ℝ).length : ℝ) - 1)) *
          aggVariance [workerAccum [0, 1]] :=
  ⟨by norm_num, varianceST_vs_MT.1 [0, 1] (by norm_num)⟩

/-- A non-finite left addend makes the sum non-finite. -/
lemma addF_nonfin_left (x : FpVal) : addF .nonfin x = .nonfin := by
  cases x <;> rfl

/-- A non-finite right addend makes the sum non-finite. -/
lemma addF_nonfin_right (x : FpVal) : addF x .nonfin = .nonfin := by
  cases x <;> rfl

/-- A non-finite left factor makes the product non-finite. -/
lemma mulF_nonfin_left (x : FpVal) : mulF .nonfin x = .nonfin := by
  cases x <;> rfl

/-- A non-finite right factor makes the product non-finite. -/
lemma mulF_nonfin_right (x : FpVal) : mulF x .nonfin = .nonfin := by
  cases x <;> rfl

/-- A non-finite minuend makes the difference non-finite. -/
lemma subF_nonfin_left (x : FpVal) : subF .nonfin x = .nonfin := by
  cases x <;> rfl

/-- A non-finite subtrahend makes the difference non-finite. -/
lemma subF_nonfin_right (x : FpVal) : subF x .nonfin = .nonfin := by
  cases x <;> rfl

/-- A non-finite dividend makes the quotient non-finite. -/
lemma divF_nonfin_left (x : FpVal) : divF .nonfin x = .nonfin := by
  cases x <;> rfl

/-- Once a non-finite payoff enters the worker loop (or the accumulator
is already non-finite), the running sum stays non-finite. -/
lemma workerAccumF_foldl_sum_nonfin :
    ∀ (ps : List FpVal) (acc : ThreadResultF),
      acc.sum = .nonfin ∨ FpVal.nonfin ∈ ps →
        (ps.foldl workerStepF acc).sum = .nonfin := by
  intro ps
  induction ps with
  | nil =>
      intro acc h
      rcases h with h | h
      · exact h
      · simp at h
  | cons p t ih =>
      intro acc h
      rw [List.foldl_cons]
      apply ih
      rcases h with h | h
      · left
        show (addF acc.sum p) = .nonfin
        rw [h, addF_nonfin_left]
      · rcases List.mem_cons.mp h with h | h
        · left
          show (addF acc.sum p) = .nonfin
          rw [← h, addF_nonfin_right]
        · right; exact h

/-- The combine loop keeps a non-finite total sum non-finite, and any
element with a non-finite sum makes the total non-finite. -/
lemma totalSumF_foldl_nonfin :
    ∀ (rs : List ThreadResultF) (a : FpVal),
      a = .nonfin ∨ (∃ t ∈ rs, t.sum = .nonfin) →
        rs.foldl (fun a t => addF a t.sum) a = .nonfin := by
  intro rs
  induction rs with
  | nil =>
      intro a h
      rcases h with h | ⟨t, ht, _⟩
      · exact h
      · simp at ht
  | cons s t ih =>
      intro a h
      rw [List.foldl_cons]
      apply ih
      rcases h with h | ⟨u, hu, hus⟩
      · left; rw [h, addF_nonfin_left]
      · rcases List.mem_cons.mp hu with h | h
        · left; rw [h] at hus; rw [hus, addF_nonfin_right]
        · right; exact ⟨u, h, hus⟩

/-- A worker whose sum is non-finite makes the combined total sum
non-finite. -/
lemma totalSumF_nonfin (rs : List ThreadResultF)
    (h : ∃ t ∈ rs, t.sum = .nonfin) : totalSumF rs = .nonfin :=
  totalSumF_foldl_nonfin rs _ (Or.inr h)

/-- C8: a non-finite payoff in a worker's trial range propagates into
that worker's running sum and, through the combine loop and the mean,
into the aggregate price: it is never dropped, clamped, or replaced by
a finite value. -/
theorem nonfinite_payoff_propagates (ps : List FpVal)
    (h : FpVal.nonfin ∈ ps) :
    (workerAccumF ps).sum = .nonfin ∧
      ∀ (pre post : List ThreadResultF) (discount : FpVal),
        (aggregateF discount (pre ++ workerAccumF ps :: post)).price =
          .nonfin := by
  have hsum : (workerAccumF ps).sum = .nonfin :=
    workerAccumF_foldl_sum_nonfin ps _ (Or.inr h)
  refine ⟨hsum, ?_⟩
  intro pre post d
  have htot : totalSumF (pre ++ workerAccumF ps :: post) = .nonfin :=
    totalSumF_nonfin _ ⟨workerAccumF ps, by simp, hsum⟩
  simp [aggregateF, htot, divF_nonfin_left, mulF_nonfin_left]

/-- Witness for C8: a single worker with the single non-finite payoff
yields a non-finite aggregate price. -/
theorem nonfinite_payoff_propagates_witness :
    FpVal.nonfin ∈ ([FpVal.nonfin] : List FpVal) ∧
      (aggregateF (.fin 1)
        ([] ++ workerAccumF [FpVal.nonfin] :: [])).price = .nonfin :=
  ⟨by simp,
    (nonfinite_payoff_propagates [FpVal.nonfin] (by simp)).2 [] [] (.fin 1)⟩

/-- C3 evaluation: at the aggregator input (sum 2, sum of squares 3/2,
count 2) the E[X²]-E[X]² identity yields the strictly negative variance
-1/4, which the code passes unclamped to `sqrt`, so the confidence
bounds are non-finite (NaN): the source clamps nothing. -/
theorem aggregateF_negative_variance_unclamped :
    aggVarianceF [(⟨.fin 2, .fin (3 / 2), 2⟩ : ThreadResultF)] =
        .fin (-(1 / 4)) ∧
      (-(1 / 4) : ℝ) < 0 ∧
      (aggregateF (.fin 1)
        [(⟨.fin 2, .fin (3 / 2), 2⟩ : ThreadResultF)]).lower = .nonfin ∧
      (aggregateF (.fin 1)
        [(⟨.fin 2, .fin (3 / 2), 2⟩ : ThreadResultF)]).upper = .nonfin := by
  refine ⟨?_, by norm_num, ?_, ?_⟩ <;>
    norm_num [aggregateF, aggVarianceF, totalSumF, totalSumSquaredF,
      totalCountF, addF, mulF, subF, divF, sqrtF, divF_nonfin_left,
      mulF_nonfin_left, mulF_nonfin_right, subF_nonfin_right,
      addF_nonfin_right]

/-- C6 evaluation: on per-worker statistics whose total count is zero,
the aggregation stage raises no error at all: it divides by zero and
returns a pricing result whose fields are all non-finite (NaN in
IEEE-754). -/
theorem aggregateF_zero_count_no_error :
    totalCountF [(⟨.fin 0, .fin 0, 0⟩ : ThreadResultF)] = 0 ∧
      aggregateF (.fin 1) [(⟨.fin 0, .fin 0, 0⟩ : ThreadResultF)] =
        ⟨.nonfin, .nonfin, .nonfin⟩ := by
  constructor
  · rfl
  · norm_num [aggregateF, aggVarianceF, totalSumF, totalSumSquaredF,
      totalCountF, addF, mulF, subF, divF, sqrtF, divF_nonfin_left,
      mulF_nonfin_left, mulF_nonfin_right, subF_nonfin_right,
      addF_nonfin_right]

/-- C10: with the valid input numTrials = 1 (any draw, any valid
parameters), the single-threaded path raises no error, its price
estimate is finite, but its variance computation divides by
numTrials - 1 = 0, so both confidence bounds are non-finite (NaN). -/
theorem single_trial_nonfinite_bounds (S0 K r sigma T : ℝ) (isCall : Bool)
    (z : ℝ) (h1 : 0 < S0) (h2 : 0 < K) (h3 : 0 < sigma) (h4 : 0 < T) :
    validate S0 K sigma T 1 = none ∧
      (monte_carlo_black_scholes_F S0 K r sigma T isCall [z]).lower =
        .nonfin ∧
      (monte_carlo_black_scholes_F S0 K r sigma T isCall [z]).upper =
        .nonfin ∧
      ∃ x : ℝ, (monte_carlo_black_scholes_F S0 K r sigma T isCall
        [z]).price = .fin x := by
  refine ⟨(validate_eq_none_iff _ _ _ _ _).mpr
      ⟨h1, h2, h3, h4, by norm_num⟩, ?_, ?_, ?_⟩ <;>
    norm_num [monte_carlo_black_scholes_F, addF, mulF, subF, divF, sqrtF,
      divF_nonfin_left, mulF_nonfin_left, mulF_nonfin_right,
      subF_nonfin_right, addF_nonfin_right]

/-- Witness for C10 at S0 = K = 100, r = 0, sigma = 1, T = 1, a call,
with the single draw z = 0. -/
theorem single_trial_nonfinite_bounds_witness :
    validate 100 100 1 1 1 = none ∧
      (monte_carlo_black_scholes_F 100 100 0 1 1 true [0]).lower =
        .nonfin ∧
      (monte_carlo_black_scholes_F 100 100 0 1 1 true [0]).upper =
        .nonfin ∧
      ∃ x : ℝ, (monte_carlo_black_scholes_F 100 100 0 1 1 true
        [0]).price = .fin x :=
  single_trial_nonfinite_bounds 100 100 0 1 1 true 0 (by norm_num)
    (by norm_num) (by norm_num) (by norm_num)

end MonteCarlo
